import Mathlib

/-!
Verification development for the financial-chatbot repository.

The Python modules `data_store.py`, `app.py`, `pdf_processor.py` and
`claude_client.py` are shallowly embedded below.  Python strings are
modelled as `List Char` (Python compares and slices strings by code
point, which `Char.toNat` reproduces).  Python dicts with string keys
and string values are modelled as ordered association lists, which
keeps `dict.get` / assignment semantics including insertion order.
A directory of JSON files is likewise an association list from file
name to stored dict.

Filesystem side effects that no property below depends on (the
`backup_legacy_data` copy made by the migrator, Streamlit widgets,
`st.warning`/`st.error` calls, and the cached per-company `file_count`
metadata inside `companies.json`) are noted in doc comments where they
occur and are not part of the state.
-/

namespace FinChat

/-- Python strings, as lists of code points. -/
abbrev Str := List Char

/-- Embed a Lean string literal as a Python string value. -/
def str (s : String) : Str := s.data

/-- A Python dict with string keys and string values, in insertion order.
The only non-string values the source ever stores (`tables`, the boolean
`migrated_from_legacy`, `auto_migrated`) are carried as opaque string
stand-ins; no claim reads them structurally. -/
abbrev Dict := List (Str × Str)

/-- `d.get(k)` / `d[k]` lookup: first binding of the key. -/
def dget? : Dict → Str → Option Str
  | [], _ => none
  | (k, v) :: rest, n => if k = n then some v else dget? rest n

/-- Python `d.get(k, default)`. -/
def dgetD (d : Dict) (n defaultVal : Str) : Str := (dget? d n).getD defaultVal

/-- Python `d[k] = v`: replace in place if the key exists, else append. -/
def dset : Dict → Str → Str → Dict
  | [], n, v => [(n, v)]
  | (k, w) :: rest, n, v => if k = n then (k, v) :: rest else (k, w) :: dset rest n v

/-- A directory of JSON documents: file name to stored dict. -/
abbrev Files := List (Str × Dict)

/-- Read the file named `n`, if present. -/
def fsGet? : Files → Str → Option Dict
  | [], _ => none
  | (k, v) :: rest, n => if k = n then some v else fsGet? rest n

/-- Write (create or overwrite) the file named `n`. -/
def fsSet (fs : Files) (n : Str) (v : Dict) : Files :=
  fs.filter (fun p => p.1 ≠ n) ++ [(n, v)]

/-- Delete the file named `n` (`Path.unlink`). -/
def fsErase (fs : Files) (n : Str) : Files :=
  fs.filter (fun p => p.1 ≠ n)

/-- The names in the directory (`os.listdir` order is the list order). -/
def fsKeys (fs : Files) : List Str := fs.map Prod.fst

/-- A real directory never holds two files of the same name. -/
def keysNodup (fs : Files) : Prop := (fsKeys fs).Nodup

/-- Python `s1 < s2` on strings: lexicographic comparison by code point. -/
def strLtB : Str → Str → Bool
  | [], [] => false
  | [], _ :: _ => true
  | _ :: _, [] => false
  | a :: as, b :: bs =>
    if a.toNat < b.toNat then true
    else if b.toNat < a.toNat then false
    else strLtB as bs

/-- Python `sub in s` on strings: substring containment. -/
def strContains (s sub : Str) : Bool :=
  if sub.isPrefixOf s then true
  else
    match s with
    | [] => false
    | _ :: t => strContains t sub

/-- Python `s.startswith(p)`. -/
def strStartsWith (s p : Str) : Bool := p.isPrefixOf s

/-- Python `s.endswith(p)`. -/
def strEndsWith (s p : Str) : Bool := p.isSuffixOf s

/-- Stable insertion step for Python `sorted` (ascending): the new element
is placed before the first strictly greater element. -/
def insertAsc (a : Str) : List Str → List Str
  | [] => [a]
  | b :: bs => if strLtB b a then b :: insertAsc a bs else a :: b :: bs

/-- Python `sorted` on a list of strings. -/
def sortStr : List Str → List Str
  | [] => []
  | a :: rest => insertAsc a (sortStr rest)

/-- Stable insertion step for Python `sorted(key=…, reverse=True)`:
descending by the string key `k`, earlier elements first among ties. -/
def insertDescBy (k : α → Str) (a : α) : List α → List α
  | [] => [a]
  | b :: bs => if strLtB (k a) (k b) then b :: insertDescBy k a bs else a :: b :: bs

/-- Python `sorted(key=…, reverse=True)` on any list. -/
def sortDescBy (k : α → Str) : List α → List α
  | [] => []
  | a :: rest => insertDescBy k a (sortDescBy k rest)

/-- `os.path.splitext(s)[0]`: everything before the last dot, except that
a name whose characters before that dot are all dots (including a name
with no dot at all) is returned unchanged. -/
def splitextBase (s : Str) : Str :=
  let rev := s.reverse
  let extRev := rev.takeWhile (fun c => c ≠ '.')
  if extRev.length = rev.length then s
  else
    let base := (rev.drop (extRev.length + 1)).reverse
    if base.any (fun c => c ≠ '.') then base else s

/-- Python `s.replace(".json", "")`: remove every occurrence. Used by the
migrator on `original_filename`. -/
def stripJsonAll : Str → Str
  | '.' :: 'j' :: 's' :: 'o' :: 'n' :: rest => stripJsonAll rest
  | c :: cs => c :: stripJsonAll cs
  | [] => []

/-! ### `data_store.py` — the artifact store (directory `data/extracted`) -/

/-- `save_extracted_data(data, filename)`: stamp `extracted_at`, strip the
final extension from `filename`, append `.json`, and (over)write that file.
`now` stands for `datetime.now().isoformat()`. -/
def save_extracted_data (fs : Files) (data : Dict) (filename : Str) (now : Str) : Files :=
  let data := dset data (str "extracted_at") now
  fsSet fs (splitextBase filename ++ str ".json") data

/-- `load_extracted_data(filename)`: same key normalisation, `None` when the
file does not exist. -/
def load_extracted_data (fs : Files) (filename : Str) : Option Dict :=
  fsGet? fs (splitextBase filename ++ str ".json")

/-- `list_saved_files()`: the sorted `.json` names of the data directory. -/
def list_saved_files (fs : Files) : List Str :=
  sortStr ((fsKeys fs).filter (fun n => strEndsWith n (str ".json")))

/-- `delete_extracted_data(filename)`: remove the normalised key; `False`
(and no change) when it is absent. -/
def delete_extracted_data (fs : Files) (filename : Str) : Files × Bool :=
  let key := splitextBase filename ++ str ".json"
  if (fsGet? fs key).isSome then (fsErase fs key, true) else (fs, false)

/-! ### `data_store.py` — the chat-session store (directory `data/history`) -/

/-- One message of a conversation: `(role, content)`. -/
abbrev Msg := Str × Str

/-- The stored content of one session file, as written by
`save_chat_history`: `{session_id, updated_at, messages}`.  The file is
named `{session_id}.json`, so the store is keyed directly by session id
and the redundant `session_id` field inside the file is the key. -/
structure Session where
  updatedAt : Str
  messages : List Msg
deriving DecidableEq

/-- The history directory: session id to stored session. -/
abbrev HistStore := List (Str × Session)

/-- Read the session file `sid`, if present. -/
def hsGet? : HistStore → Str → Option Session
  | [], _ => none
  | (k, v) :: rest, n => if k = n then some v else hsGet? rest n

/-- `save_chat_history(messages, session_id)`: overwrite the whole file,
stamping `updated_at := now`. -/
def save_chat_history (hs : HistStore) (messages : List Msg) (sid : Str) (now : Str) : HistStore :=
  (hs.filter (fun p => p.1 ≠ sid)) ++ [(sid, ⟨now, messages⟩)]

/-- `load_chat_history(session_id)`: the stored message list, `[]` when the
file does not exist. -/
def load_chat_history (hs : HistStore) (sid : Str) : List Msg :=
  match hsGet? hs sid with
  | none => []
  | some s => s.messages

/-- `list_chat_sessions()`: `(session_id, updated_at, message_count)` for
every session file, sorted by `updated_at` descending (Python
`sorted(key=…, reverse=True)`, a stable descending sort). -/
def list_chat_sessions (hs : HistStore) : List (Str × Str × Nat) :=
  sortDescBy (fun t => t.2.1)
    (hs.map (fun p => (p.1, p.2.updatedAt, p.2.messages.length)))

/-- `delete_chat_history(session_id)`. -/
def delete_chat_history (hs : HistStore) (sid : Str) : HistStore × Bool :=
  if (hsGet? hs sid).isSome then (hs.filter (fun p => p.1 ≠ sid), true) else (hs, false)

/-! ### `app.py` — token management -/

/-- `MAX_CONTEXT_TOKENS`. -/
def MAX_CONTEXT_TOKENS : Nat := 150000

/-- `estimate_tokens(text)`: `len(text) // CHARS_PER_TOKEN` with
`CHARS_PER_TOKEN = 4` (an empty text gives 0 through either branch). -/
def estimate_tokens (s : Str) : Nat := s.length / 4

/-- The fixed truncation notice appended by `truncate_context`. -/
def TRUNC_NOTICE : Str := str "\n\n... [내용이 너무 길어 일부만 표시됩니다.]"

/-- `truncate_context(context, max_tokens)`.  The Python float product
`len(context) * (max_tokens / estimated_tokens) * 0.95` followed by `int`
is modelled as the exact rational floor `len * max_tokens * 95 / (est * 100)`. -/
def truncate_context (ctx : Str) (maxTokens : Nat) : Str × Bool :=
  let estimatedTokens := estimate_tokens ctx
  if estimatedTokens ≤ maxTokens then (ctx, false)
  else
    let maxChars := ctx.length * maxTokens * 95 / (estimatedTokens * 100)
    (ctx.take maxChars ++ TRUNC_NOTICE, true)

/-! ### `pdf_processor.py` -/

/-- `process_pdf(pdf_path)`: `{source_file, text_content, tables}`.  The
extracted text and the rendering of the extracted table list are inputs
of the model (`text`, `tables`); the `tables` value, a list of table
records in Python, is carried as an opaque string since no claim below
reads table structure.  Note the extracted text is stored under the key
`text_content`. -/
def process_pdf (pdfPath text tables : Str) : Dict :=
  [(str "source_file", pdfPath), (str "text_content", text), (str "tables", tables)]

/-- `get_financial_context(data)`: the headers and the first 10000
characters of `text_content`; the table section renders the opaque
`tables` stand-in where the source calls `format_tables_for_context`.
Used only by `get_all_data_context` (the empty-selection branch), which
no claim exercises. -/
def get_financial_context (d : Dict) : Str :=
  List.intercalate (str "\n")
    ((if dgetD d (str "text_content") (str "") ≠ str "" then
        [str "=== 문서 텍스트 내용 ===", (dgetD d (str "text_content") (str "")).take 10000]
      else []) ++
     (if dgetD d (str "tables") (str "") ≠ str "" then
        [str "\n=== 표 데이터 ===", dgetD d (str "tables") (str "")]
      else []))

/-- `get_all_data_context()` from `data_store.py`. -/
def get_all_data_context (fs : Files) : Str :=
  let files := list_saved_files fs
  if files.isEmpty then str "저장된 재무 데이터가 없습니다."
  else
    List.intercalate (str "\n")
      (files.flatMap (fun n =>
        match load_extracted_data fs n with
        | none => []
        | some d =>
          if d.isEmpty then []
          else [str "\n" ++ List.replicate 60 '=' ++ str "\n파일: " ++ n ++ str "\n" ++
                  List.replicate 60 '=',
                get_financial_context d]))

/-! ### `app.py` — application state

`app.py` touches four persistent locations:
* the company registry `persistent_data/companies.json` (`companies`;
  per-company metadata `created_at` / `file_count` / `auto_migrated` is
  registry payload no claim reads, so only the key set, in insertion
  order, is kept);
* the artifact store of `data_store.py`, directory `data/extracted`
  (`files`);
* the directory `extracted_data` that `auto_migrate_legacy_data` and
  `rename_company` operate on (`legacyDir`) — note this is a different
  directory from the `data_store.py` one;
* the PDF storage `persistent_data/pdf_files/{company}/` (`pdfs`,
  a directory name to file-name-list map). -/
structure AppState where
  companies : List Str
  files : Files
  legacyDir : Files
  pdfs : List (Str × List Str)
deriving DecidableEq

/-- `get_all_company_names()` / membership in `companies.json`. -/
def get_all_company_names (st : AppState) : List Str := st.companies

/-- `add_company(name)`. -/
def add_company (st : AppState) (name : Str) : AppState × Bool :=
  if name ∈ st.companies then (st, false)
  else ({ st with companies := st.companies ++ [name] }, true)

/-! ### `app.py` — legacy migration -/

/-- The synthetic legacy group `"기존데이터"`. -/
def legacyName : Str := str "기존데이터"

/-- Dict keys used by the source. -/
def cnKey : Str := str "company_name"

/-- `original_filename`. -/
def ofKey : Str := str "original_filename"

/-- `stored_path`. -/
def spKey : Str := str "stored_path"

/-- `migrated_from_legacy` (its boolean `True` value is carried as the
string `"True"`; no claim reads it). -/
def mflKey : Str := str "migrated_from_legacy"

/-- Classification of one file of `extracted_data` by
`auto_migrate_legacy_data`: `filename = file.stem`; legacy when it has no
underscore, or when the part before the first underscore
(`filename.split('_')[0]`) is not a known company. -/
def isLegacyFile (companies : List Str) (n : Str) : Bool :=
  let filename := splitextBase n
  if '_' ∈ filename then decide (filename.takeWhile (fun c => c ≠ '_') ∉ companies)
  else true

/-- The body of the migration loop for one legacy file `n`: re-read the
file (it may have been overwritten by an earlier iteration), skip it when
its `company_name` is already the legacy group, otherwise tag it, write it
under `기존데이터_{name}` and unlink the original (the copy into
`backup_legacy_data` has no bearing on the store).  Returns the store and
the contribution to `migrated`. -/
def migrateStep (fs : Files) (n : Str) : Files × Nat :=
  match fsGet? fs n with
  | none => (fs, 0)
  | some data =>
    if dget? data cnKey = some legacyName then (fs, 0)
    else
      let data := dset data cnKey legacyName
      let data := dset data ofKey (stripJsonAll n)
      let data := dset data mflKey (str "True")
      let newFilename := legacyName ++ str "_" ++ n
      (fsErase (fsSet fs newFilename data) n, 1)

/-- One `foldl` step of the migration loop: thread the store through
`migrateStep` and accumulate `migrated`. -/
def migrateAccStep (acc : Files × Nat) (n : Str) : Files × Nat :=
  ((migrateStep acc.1 n).1, acc.2 + (migrateStep acc.1 n).2)

/-- `auto_migrate_legacy_data()`: glob `extracted_data/*.json`, classify
against the companies known before the run, create the legacy company if
anything is to migrate, then process every legacy file in glob order. -/
def auto_migrate_legacy_data (st : AppState) : AppState × Nat :=
  let allFiles := (fsKeys st.legacyDir).filter (fun n => strEndsWith n (str ".json"))
  let legacyFiles := allFiles.filter (isLegacyFile st.companies)
  if legacyFiles.isEmpty then (st, 0)
  else
    let companies :=
      if legacyName ∈ st.companies then st.companies else st.companies ++ [legacyName]
    let res := legacyFiles.foldl migrateAccStep (st.legacyDir, 0)
    ({ st with companies := companies, legacyDir := res.1 }, res.2)

/-- Invariant of a store entry after one migration run against the
company set `C`: if the entry would be classified legacy again, it is
already tagged with the legacy group name and the migrator skips it. -/
def GoodP (C : List Str) (p : Str × Dict) : Prop :=
  strEndsWith p.1 (str ".json") = true → isLegacyFile C p.1 = true →
    dget? p.2 cnKey = some legacyName

/-! ### `app.py` — company rename and file management -/

/-- `rename_company(old_name, new_name)`.  Fails when `old_name` is not
registered or `new_name` already is.  On success the registry entry moves
(`pop` then insert at the end), every file of the `extracted_data`
directory matching the glob `{old_name}_*.json` is rewritten under the
new prefix (`str.replace(old_, new_, 1)` replaces the leftmost — here the
leading — occurrence) with `company_name` updated, the original is
unlinked, and the PDF directory `old_name` is renamed. -/
def rename_company (st : AppState) (oldName newName : Str) : AppState × Bool :=
  if oldName ∉ st.companies ∨ newName ∈ st.companies then (st, false)
  else
    let companies := (st.companies.filter (fun c => c ≠ oldName)) ++ [newName]
    let targets := (fsKeys st.legacyDir).filter
      (fun n => strStartsWith n (oldName ++ str "_") && strEndsWith n (str ".json"))
    let dir := targets.foldl
      (fun fs n =>
        match fsGet? fs n with
        | none => fs
        | some data =>
          let newFilename := newName ++ str "_" ++ n.drop (oldName.length + 1)
          fsErase (fsSet fs newFilename (dset data cnKey newName)) n)
      st.legacyDir
    let pdfs := st.pdfs.map (fun p => if p.1 = oldName then (newName, p.2) else p)
    ({ st with companies := companies, legacyDir := dir, pdfs := pdfs }, true)

/-- `save_pdf_permanently(uploaded_file, company_name)`: create the
company directory if needed and (over)write the uploaded name into it. -/
def save_pdf_permanently (pdfs : List (Str × List Str)) (g fname : Str) :
    List (Str × List Str) :=
  match pdfs with
  | [] => [(g, [fname])]
  | (d, names) :: rest =>
    if d = g then (d, if fname ∈ names then names else names ++ [fname]) :: rest
    else (d, names) :: save_pdf_permanently rest g fname

/-- Does the PDF storage hold `fname` under company directory `g`? -/
def pdfHas (pdfs : List (Str × List Str)) (g fname : Str) : Bool :=
  pdfs.any (fun p => p.1 = g && fname ∈ p.2)

/-- `delete_pdf_file(company_name, filename)`: unlink
`pdf_files/{company}/{filename}` when it exists. -/
def delete_pdf_file (pdfs : List (Str × List Str)) (g fname : Str) :
    List (Str × List Str) :=
  pdfs.map (fun p => if p.1 = g then (p.1, p.2.filter (fun f => f ≠ fname)) else p)

/-- `save_company_file(uploaded_file, company_name)`: store the PDF, run
`process_pdf`, add `company_name` / `original_filename` / `stored_path`,
and save under the key `{company_name}_{uploaded_file.name}`.  The token
warning and `update_company_file_count` (cached registry metadata) have
no effect on the modelled state.  `text`/`tables` are the extraction
results, `now` the timestamp stamped by `save_extracted_data`. -/
def save_company_file (st : AppState) (g fname text tables now : Str) : AppState :=
  let pdfPath := str "persistent_data/pdf_files/" ++ g ++ str "/" ++ fname
  let pdfs := save_pdf_permanently st.pdfs g fname
  let data := process_pdf pdfPath text tables
  let data := dset data cnKey g
  let data := dset data ofKey fname
  let data := dset data spKey pdfPath
  let files := save_extracted_data st.files data (g ++ str "_" ++ fname) now
  { st with pdfs := pdfs, files := files }

/-- `get_company_files(company_name)`: names from `list_saved_files()`
that start with `{company}_`, with the prefix and a trailing `.json`
stripped, deduplicated and sorted (`sorted(set(…))`). -/
def get_company_files (fs : Files) (g : Str) : List Str :=
  sortStr (((list_saved_files fs).filterMap
    (fun n =>
      if strStartsWith n (g ++ str "_") then
        some (let original := n.drop (g.length + 1);
              if strEndsWith original (str ".json") then original.take (original.length - 5)
              else original)
      else none)).dedup)

/-- The per-file delete button of `main()` (`app.py` sidebar):
`delete_pdf_file(company, file)` followed by
`delete_extracted_data(f"{company}_{file}")`
(`update_company_file_count` only recomputes cached metadata). -/
def main_delete_file (st : AppState) (g fname : Str) : AppState :=
  let pdfs := delete_pdf_file st.pdfs g fname
  let files := (delete_extracted_data st.files (g ++ str "_" ++ fname)).1
  { st with pdfs := pdfs, files := files }

/-! ### `app.py` — context assembly -/

/-- `get_selected_companies_context()`.  With an empty selection the whole
store is rendered through `get_all_data_context`; otherwise every saved
file whose name starts with `{company}_` for a selected company (appended
once per matching company, in the nested-loop order of the source) is
loaded, and for each loaded, non-empty dict the assembly appends the
header `f"\n\n=== {company_name} - {filename} ===\n"` and then
`data.get('text', '')` — note the key `text`, while `process_pdf` stores
the extracted text under `text_content`.  The parts are joined with
`"\n"` and passed through `truncate_context`. -/
def get_selected_companies_context (fs : Files) (sel : List Str) : Str :=
  if sel.isEmpty then (truncate_context (get_all_data_context fs) MAX_CONTEXT_TOKENS).1
  else
    let savedFiles := list_saved_files fs
    let selectedData := savedFiles.flatMap (fun n =>
      sel.filterMap (fun company =>
        if strStartsWith n (company ++ str "_") then
          match load_extracted_data fs n with
          | none => none
          | some d => if d.isEmpty then none else some d
        else none))
    if selectedData.isEmpty then str "선택된 회사의 데이터가 없습니다."
    else
      let contextParts := selectedData.flatMap (fun d =>
        [str "\n\n=== " ++ dgetD d cnKey (str "알 수 없음") ++ str " - " ++
           dgetD d ofKey (str "") ++ str " ===\n",
         dgetD d (str "text") (str "")])
      (truncate_context (List.intercalate (str "\n") contextParts) MAX_CONTEXT_TOKENS).1

/-- The context `main()` hands to `client.ask` for a chat prompt
(`app.py`: `context = get_selected_companies_context()`): the prompt text
is not consulted when assembling the context. -/
def context_for_prompt (fs : Files) (sel : List Str) (_prompt : Str) : Str :=
  get_selected_companies_context fs sel

/-! ### `app.py` — session initialisation -/

/-- `init_session_state()` when no current-session pointer exists yet:
take the first entry of `list_chat_sessions()` if any, else mint a fresh
timestamp id (`now`); then load that session's messages with
`load_chat_history`.  Returns `(current_session, messages)`. -/
def init_session_state (hs : HistStore) (now : Str) : Str × List Msg :=
  let sessions := list_chat_sessions hs
  match sessions with
  | [] => (now, load_chat_history hs now)
  | s :: _ => (s.1, load_chat_history hs s.1)

/-! ### `claude_client.py` — the model client -/

/-- The outcome of one `self.client.messages.create(...)` call:
a successful answer, a `RateLimitError`, an `APIError` carrying a
message, or any other exception (which `ask` does not catch). -/
inductive ApiAttempt where
  | ok (text : Str)
  | rateLimited
  | apiError (msg : Str)
  | exn (msg : Str)
deriving DecidableEq

/-- `self.max_retries`. -/
def MAX_RETRIES : Nat := 3

/-- The degraded-service message returned when the rate limit survives
every retry. -/
def rateLimitMsg : Str :=
  str "⚠️ API 요청 한도에 도달했습니다.\n\n**해결 방법:**\n1. 1-2분 후 다시 시도해주세요\n2. Anthropic Console에서 사용량을 확인하세요\n3. 요금제 업그레이드를 고려해보세요"

/-- The `APIError` message. -/
def apiErrorMsg (m : Str) : Str := str "⚠️ API 오류가 발생했습니다: " ++ m

/-- The retry loop of `ClaudeClient.ask`: attempt `i` of `MAX_RETRIES`;
a rate limit sleeps and retries unless this was the last attempt, an
`APIError` returns its message as the answer, any other exception
propagates (`Except.error`).  `fuel` starts at `MAX_RETRIES`, so the
`fuel = 0` branch (Python's fall-through `return None`) is unreachable. -/
def askLoop (attempts : Nat → ApiAttempt) : Nat → Nat → Except Str Str
  | 0, _ => .ok (str "")
  | fuel + 1, i =>
    match attempts i with
    | .ok t => .ok t
    | .apiError m => .ok (apiErrorMsg m)
    | .exn m => .error m
    | .rateLimited =>
      if i + 1 < MAX_RETRIES then askLoop attempts fuel (i + 1) else .ok rateLimitMsg

/-- `ClaudeClient.ask(...)`, as a function of the per-attempt API
outcomes. -/
def client_ask (attempts : Nat → ApiAttempt) : Except Str Str := askLoop attempts MAX_RETRIES 0

/-! ### `app.py` — one chat turn of `main()` -/

/-- The remediation message recorded when the raised error mentions
`"too long"`. -/
def tooLongMsg : Str := str "데이터가 많습니다. 특정 회사나 연도를 지정해주세요."

/-- One chat turn of `main()` given the `client.ask` outcome: append the
user prompt, produce either the answer or — in the `except` branch — a
recorded failure message (the `"too long"` remediation or
`f"오류: {e}"`), append it as the assistant message. -/
def handle_turn (messages : List Msg) (prompt : Str) (askResult : Except Str Str) : List Msg :=
  let messages := messages ++ [(str "user", prompt)]
  let response :=
    match askResult with
    | .ok r => r
    | .error e => if strContains e (str "too long") then tooLongMsg else str "오류: " ++ e
  messages ++ [(str "assistant", response)]

/-- The full persistence path of one chat turn: run the model client,
build the new message list, and `save_chat_history` it under the current
session.  Returns the history store and the in-memory messages. -/
def run_chat_turn (hs : HistStore) (sid now : Str) (messages : List Msg) (prompt : Str)
    (attempts : Nat → ApiAttempt) : HistStore × List Msg :=
  let final := handle_turn messages prompt (client_ask attempts)
  (save_chat_history hs final sid now, final)

/-! ### Concrete states used by the evaluations and witnesses below -/

/-- One registered company `Acme`, nothing uploaded yet. -/
def acmeInit : AppState := ⟨[str "Acme"], [], [], []⟩

/-- The store after uploading `r.pdf` to `Acme` with extracted text
`Revenue: 100`. -/
def c1State : AppState :=
  save_company_file acmeInit (str "Acme") (str "r.pdf") (str "Revenue: 100") (str "") (str "t0")

/-- One registered company `A` with one uploaded artifact `x.pdf`. -/
def c4State : AppState :=
  save_company_file ⟨[str "A"], [], [], []⟩ (str "A") (str "x.pdf") (str "T") (str "") (str "t0")

/-- `Acme` with the two yearly reports of the spec's example scenario. -/
def acmeYears : AppState :=
  save_company_file
    (save_company_file acmeInit (str "Acme") (str "2023.pdf") (str "Revenue: 100") (str "")
      (str "t1"))
    (str "Acme") (str "2022.pdf") (str "Revenue: 90") (str "") (str "t2")

/-- A legacy `extracted_data` directory holding one pre-group-model
record, next to an empty registry. -/
def legacyDemo : AppState :=
  ⟨[], [], [(str "report2020.json", [(str "text_content", str "T")])], []⟩

/-- Three stored sessions with increasing `updated_at` stamps, listed in
arbitrary directory order. -/
def demoHist : HistStore :=
  [(str "s1", ⟨str "2024-01-01T10:00:00", [(str "user", str "q1")]⟩),
   (str "s3", ⟨str "2024-03-01T10:00:00", [(str "user", str "q3"), (str "assistant", str "a3")]⟩),
   (str "s2", ⟨str "2024-02-01T10:00:00", []⟩)]

/-- Company `g` with an uploaded document whose stem itself contains a
dot: `a.b.pdf`. -/
def c10State : AppState :=
  save_company_file ⟨[str "g"], [], [], []⟩ (str "g") (str "a.b.pdf") (str "T") (str "") (str "t0")

/-- Company `g` with the plain upload `report.pdf`, for the amended-claim
witness. -/
def c10Plain : AppState := ⟨[str "g"], [], [], []⟩

/-! ### Dict and directory lemmas -/

theorem dget?_dset_self (d : Dict) (k v : Str) : dget? (dset d k v) k = some v := by
  induction d with
  | nil => simp [dset, dget?]
  | cons p rest ih =>
    by_cases h : p.1 = k
    · simp [dset, h, dget?]
    · simpa [dset, h, dget?] using ih

theorem dget?_dset_ne (d : Dict) (k m v : Str) (h : k ≠ m) :
    dget? (dset d k v) m = dget? d m := by
  induction d with
  | nil => simp [dset, dget?, h]
  | cons p rest ih =>
    by_cases hp : p.1 = k
    · simp [dset, hp, dget?, h, hp ▸ h]
    · by_cases hm : p.1 = m
      · simp [dset, hp, dget?, hm, Ne.symm h]
      · simpa [dset, hp, dget?, hm] using ih

theorem mem_fsErase {fs : Files} {n : Str} {p : Str × Dict} :
    p ∈ fsErase fs n ↔ p ∈ fs ∧ p.1 ≠ n := by
  simp [fsErase, List.mem_filter]

theorem mem_fsSet {fs : Files} {n : Str} {v : Dict} {p : Str × Dict} :
    p ∈ fsSet fs n v ↔ (p ∈ fs ∧ p.1 ≠ n) ∨ p = (n, v) := by
  simp [fsSet, List.mem_append, List.mem_filter]

theorem fsGet?_eq_some_mem {fs : Files} {n : Str} {d : Dict}
    (h : fsGet? fs n = some d) : (n, d) ∈ fs := by
  induction fs with
  | nil => simp [fsGet?] at h
  | cons p rest ih =>
    by_cases hp : p.1 = n
    · simp [fsGet?, hp] at h
      have he : (n, d) = p := by cases p; simp_all
      exact List.mem_cons.mpr (Or.inl he)
    · simp [fsGet?, hp] at h
      exact List.mem_cons_of_mem _ (ih h)

theorem fsGet?_isSome_of_mem {fs : Files} {n : Str} {d : Dict}
    (h : (n, d) ∈ fs) : (fsGet? fs n).isSome := by
  induction fs with
  | nil => simp at h
  | cons p rest ih =>
    by_cases hp : p.1 = n
    · simp [fsGet?, hp]
    · rcases List.mem_cons.mp h with h1 | h1
      · exact absurd (congrArg Prod.fst h1.symm) hp
      · simpa [fsGet?, hp] using ih h1

theorem fsGet?_eq_of_mem_nodup {fs : Files} {n : Str} {d : Dict}
    (hnd : keysNodup fs) (h : (n, d) ∈ fs) : fsGet? fs n = some d := by
  induction fs with
  | nil => simp at h
  | cons p rest ih =>
    rw [keysNodup, fsKeys, List.map_cons, List.nodup_cons] at hnd
    rcases List.mem_cons.mp h with h1 | h1
    · subst h1
      simp [fsGet?]
    · have hp : p.1 ≠ n := by
        intro he
        exact hnd.1 (he ▸ (List.mem_map_of_mem Prod.fst h1))
      simpa [fsGet?, hp] using ih hnd.2 h1

theorem keysNodup_fsSet {fs : Files} (n : Str) (v : Dict) (hnd : keysNodup fs) :
    keysNodup (fsSet fs n v) := by
  rw [keysNodup, fsKeys, fsSet, List.map_append, List.nodup_append]
  refine ⟨?_, by simp, ?_⟩
  · exact ((fs.filter_sublist).map Prod.fst).nodup hnd
  · intro a ha
    simp only [List.mem_map, List.mem_filter] at ha
    obtain ⟨p, ⟨_, hp⟩, rfl⟩ := ha
    simp only [List.map_cons, List.map_nil, List.mem_singleton]
    simpa using hp

theorem keysNodup_fsErase {fs : Files} (n : Str) (hnd : keysNodup fs) :
    keysNodup (fsErase fs n) := by
  rw [keysNodup, fsKeys]
  exact ((fs.filter_sublist).map Prod.fst).nodup hnd

theorem fsGet?_append (l1 l2 : Files) (n : Str) :
    fsGet? (l1 ++ l2) n =
      match fsGet? l1 n with
      | some d => some d
      | none => fsGet? l2 n := by
  induction l1 with
  | nil => simp [fsGet?]
  | cons p rest ih =>
    by_cases hp : p.1 = n
    · simp [fsGet?, hp]
    · simpa [fsGet?, hp] using ih

theorem fsGet?_filter_ne_self (fs : Files) (n : Str) :
    fsGet? (fs.filter (fun p => p.1 ≠ n)) n = none := by
  induction fs with
  | nil => simp [fsGet?]
  | cons p rest ih =>
    by_cases hp : p.1 = n
    · simpa [hp] using ih
    · simpa [hp, fsGet?] using ih

theorem fsGet?_fsSet_self (fs : Files) (n : Str) (v : Dict) :
    fsGet? (fsSet fs n v) n = some v := by
  rw [fsSet, fsGet?_append, fsGet?_filter_ne_self]
  simp [fsGet?]

theorem fsGet?_filter_ne (fs : Files) (n m : Str) (h : m ≠ n) :
    fsGet? (fs.filter (fun p => p.1 ≠ n)) m = fsGet? fs m := by
  induction fs with
  | nil => simp [fsGet?]
  | cons p rest ih =>
    by_cases hp : p.1 = n
    · have hpm : p.1 ≠ m := fun he => h (by rw [← he, hp])
      simpa [List.filter_cons, hp, fsGet?, hpm, Ne.symm h] using ih
    · by_cases hm : p.1 = m
      · simp [List.filter_cons, hp, fsGet?, hm, h]
      · simpa [List.filter_cons, hp, fsGet?, hm] using ih

theorem fsGet?_fsSet_ne (fs : Files) (n m : Str) (v : Dict) (h : m ≠ n) :
    fsGet? (fsSet fs n v) m = fsGet? fs m := by
  rw [fsSet, fsGet?_append, fsGet?_filter_ne fs n m h]
  cases hg : fsGet? fs m with
  | some d => simp
  | none => simp [fsGet?, Ne.symm h]

theorem fsGet?_fsErase_self (fs : Files) (n : Str) :
    fsGet? (fsErase fs n) n = none := fsGet?_filter_ne_self fs n

/-! ### Lexicographic-order lemmas -/

theorem strLtB_irrefl (s : Str) : strLtB s s = false := by
  induction s with
  | nil => rfl
  | cons c cs ih =>
    simp only [strLtB, Nat.lt_irrefl, if_false]
    exact ih

theorem strLtB_asymm {a b : Str} (h : strLtB a b = true) : strLtB b a = false := by
  induction a generalizing b with
  | nil =>
    cases b with
    | nil => simp [strLtB] at h
    | cons y ys => simp [strLtB]
  | cons x xs ih =>
    cases b with
    | nil => simp [strLtB] at h
    | cons y ys =>
      simp only [strLtB] at h ⊢
      by_cases h1 : x.toNat < y.toNat
      · simp only [h1, if_true] at h
        have h2 : ¬ y.toNat < x.toNat := by omega
        simp [h1, h2]
      · by_cases h2 : y.toNat < x.toNat
        · simp [h1, h2] at h
        · simp only [h1, h2, if_false] at h
          simp [h1, h2, ih h]

theorem strLtB_cotrans {a c : Str} (b : Str) (h : strLtB a c = true) :
    strLtB a b = true ∨ strLtB b c = true := by
  induction a generalizing b c with
  | nil =>
    cases b with
    | nil => right; exact h
    | cons y ys => left; simp [strLtB]
  | cons x xs ih =>
    cases c with
    | nil => simp [strLtB] at h
    | cons z zs =>
      cases b with
      | nil => right; simp [strLtB]
      | cons y ys =>
        simp only [strLtB] at h ⊢
        by_cases h1 : x.toNat < y.toNat
        · left; simp [h1]
        · by_cases h2 : y.toNat < z.toNat
          · right; simp [h2]
          · by_cases h3 : x.toNat < z.toNat
            · omega
            · by_cases h4 : z.toNat < x.toNat
              · simp [h3, h4] at h
              · simp only [h3, h4, if_false] at h
                have h5 : ¬ y.toNat < x.toNat := by omega
                have h6 : ¬ z.toNat < y.toNat := by omega
                simp only [h1, h5, h2, h6, if_false]
                exact ih ys h

theorem strLtB_false_trans {a b c : Str} (hab : strLtB a b = false)
    (hbc : strLtB b c = false) : strLtB a c = false := by
  by_contra hac
  rw [Bool.not_eq_false] at hac
  rcases strLtB_cotrans b hac with h | h
  · rw [h] at hab; exact Bool.noConfusion hab
  · rw [h] at hbc; exact Bool.noConfusion hbc

/-! ### Sorting lemmas -/

theorem mem_insertAsc {a x : Str} {l : List Str} :
    x ∈ insertAsc a l ↔ x = a ∨ x ∈ l := by
  induction l with
  | nil => simp [insertAsc]
  | cons b bs ih =>
    by_cases hc : strLtB b a
    · simp only [insertAsc]
      rw [if_pos hc]
      simp only [List.mem_cons, ih]
      tauto
    · simp only [insertAsc]
      rw [if_neg hc]
      simp only [List.mem_cons]

theorem mem_sortStr {x : Str} {l : List Str} : x ∈ sortStr l ↔ x ∈ l := by
  induction l with
  | nil => simp [sortStr]
  | cons a rest ih => simp [sortStr, mem_insertAsc, ih]

theorem mem_insertDescBy {k : α → Str} {a x : α} {l : List α} :
    x ∈ insertDescBy k a l ↔ x = a ∨ x ∈ l := by
  induction l with
  | nil => simp [insertDescBy]
  | cons b bs ih =>
    by_cases hc : strLtB (k a) (k b)
    · simp only [insertDescBy]
      rw [if_pos hc]
      simp only [List.mem_cons, ih]
      tauto
    · simp only [insertDescBy]
      rw [if_neg hc]
      simp only [List.mem_cons]

theorem mem_sortDescBy {k : α → Str} {x : α} {l : List α} :
    x ∈ sortDescBy k l ↔ x ∈ l := by
  induction l with
  | nil => simp [sortDescBy]
  | cons a rest ih => simp [sortDescBy, mem_insertDescBy, ih]

theorem pairwise_insertDescBy (k : α → Str) (a : α) (l : List α)
    (hl : l.Pairwise (fun x y => strLtB (k x) (k y) = false)) :
    (insertDescBy k a l).Pairwise (fun x y => strLtB (k x) (k y) = false) := by
  induction l with
  | nil => simp [insertDescBy]
  | cons b bs ih =>
    rw [List.pairwise_cons] at hl
    obtain ⟨hb, hbs⟩ := hl
    by_cases hc : strLtB (k a) (k b)
    · simp only [insertDescBy]
      rw [if_pos hc, List.pairwise_cons]
      refine ⟨?_, ih hbs⟩
      intro x hx
      rcases mem_insertDescBy.mp hx with rfl | hx
      · exact strLtB_asymm hc
      · exact hb x hx
    · have hc' : strLtB (k a) (k b) = false := by simpa using hc
      simp only [insertDescBy]
      rw [if_neg hc, List.pairwise_cons]
      refine ⟨?_, List.pairwise_cons.mpr ⟨hb, hbs⟩⟩
      intro x hx
      rcases List.mem_cons.mp hx with rfl | hx
      · exact hc'
      · exact strLtB_false_trans hc' (hb x hx)

theorem pairwise_sortDescBy (k : α → Str) (l : List α) :
    (sortDescBy k l).Pairwise (fun x y => strLtB (k x) (k y) = false) := by
  induction l with
  | nil => simp [sortDescBy]
  | cons a rest ih => exact pairwise_insertDescBy k a _ ih

/-! ### `splitext` lemmas -/

theorem takeWhile_all {p : Char → Bool} {l : Str} (h : ∀ x ∈ l, p x = true) :
    l.takeWhile p = l := by
  induction l with
  | nil => rfl
  | cons c cs ih =>
    rw [List.takeWhile_cons, if_pos (h c (List.mem_cons_self c cs))]
    rw [ih fun x hx => h x (List.mem_cons_of_mem c hx)]

theorem takeWhile_append_stop {p : Char → Bool} {l r : Str} {a : Char}
    (hl : ∀ x ∈ l, p x = true) (ha : p a = false) :
    (l ++ a :: r).takeWhile p = l := by
  rw [List.takeWhile_append, takeWhile_all hl]
  simp [List.takeWhile_cons, ha]

theorem splitextBase_no_dot {s : Str} (h : '.' ∉ s) : splitextBase s = s := by
  have hall : ∀ x ∈ s.reverse, (fun c => decide (c ≠ '.')) x = true := by
    intro x hx
    simp only [decide_eq_true_eq]
    intro he
    subst he
    exact h (List.mem_reverse.mp hx)
  simp only [splitextBase]
  rw [takeWhile_all hall]
  simp

theorem splitextBase_ext {xs ys : Str} (hx : ∃ c ∈ xs, c ≠ '.') (hy : '.' ∉ ys) :
    splitextBase (xs ++ '.' :: ys) = xs := by
  have hrev : (xs ++ '.' :: ys).reverse = ys.reverse ++ '.' :: xs.reverse := by
    simp
  have hall : ∀ x ∈ ys.reverse, (fun c => decide (c ≠ '.')) x = true := by
    intro x hx2
    simp only [decide_eq_true_eq]
    intro he
    subst he
    exact hy (List.mem_reverse.mp hx2)
  have htw : (ys.reverse ++ '.' :: xs.reverse).takeWhile (fun c => decide (c ≠ '.')) =
      ys.reverse := takeWhile_append_stop hall (by simp)
  have hdrop : (ys.reverse ++ '.' :: xs.reverse).drop (ys.reverse.length + 1) = xs.reverse := by
    have hsplit : ys.reverse ++ '.' :: xs.reverse = (ys.reverse ++ ['.']) ++ xs.reverse := by
      simp
    rw [hsplit, show ys.reverse.length + 1 = (ys.reverse ++ ['.']).length by simp,
      List.drop_left]
  have hlen : ¬ (ys.reverse.length = (ys.reverse ++ '.' :: xs.reverse).length) := by
    simp only [List.length_append, List.length_cons, List.length_reverse]
    omega
  have hany : xs.any (fun c => decide (c ≠ '.')) = true := by
    rw [List.any_eq_true]
    obtain ⟨c, hc, hcne⟩ := hx
    exact ⟨c, hc, by simpa using hcne⟩
  simp only [splitextBase, hrev, htw]
  rw [if_neg hlen, hdrop, List.reverse_reverse, if_pos hany]

theorem splitextBase_json {α : Str} (hx : ∃ c ∈ α, c ≠ '.') :
    splitextBase (α ++ str ".json") = α := by
  have he : α ++ str ".json" = α ++ '.' :: str "json" := rfl
  rw [he]
  exact splitextBase_ext hx (by decide)

theorem fsGet?_eq_none {fs : Files} {n : Str} (h : n ∉ fsKeys fs) : fsGet? fs n = none := by
  induction fs with
  | nil => rfl
  | cons p rest ih =>
    rw [fsKeys, List.map_cons, List.mem_cons] at h
    push_neg at h
    have hp : p.1 ≠ n := fun he => h.1 he.symm
    simp only [fsGet?]
    rw [if_neg hp]
    exact ih h.2

theorem hsGet?_eq_none {hs : HistStore} {n : Str} (h : n ∉ hs.map Prod.fst) :
    hsGet? hs n = none := by
  induction hs with
  | nil => rfl
  | cons p rest ih =>
    rw [List.map_cons, List.mem_cons] at h
    push_neg at h
    have hp : p.1 ≠ n := fun he => h.1 he.symm
    simp only [hsGet?]
    rw [if_neg hp]
    exact ih h.2

/-! ### Claim theorems -/

/-- C1 (code bug, evaluated at the failing input): after uploading
`r.pdf` to group `Acme` with extracted text `Revenue: 100`, assembling
the context for the selection `[Acme]` yields the header line followed by
an empty body — `data.get('text', '')` misses the `text_content` key that
the pipeline actually stores (third conjunct), so the full extracted text
never reaches the context, contrary to the claim. -/
theorem c1_text_key_mismatch :
    get_selected_companies_context c1State.files [str "Acme"] =
      str "\n\n=== Acme - r.pdf ===\n\n"
    ∧ strContains (get_selected_companies_context c1State.files [str "Acme"])
        (str "Revenue: 100") = false
    ∧ (load_extracted_data c1State.files (str "Acme_r.json")).map
        (fun d => dget? d (str "text_content")) = some (some (str "Revenue: 100")) := by
  refine ⟨by decide, by decide, by decide⟩

/-- C4 (code bug, evaluated at the failing input): with registry `{A}`
and the single uploaded artifact `A_x.json` in the artifact store,
`rename_company("A", "B")` reports success, yet the artifact listing
still holds `A_x.json`, holds nothing prefixed `B_`, and the artifact's
`company_name` is still `A` — the rename globs the `extracted_data`
directory while artifacts live in the `data_store.py` directory. -/
theorem c4_rename_wrong_directory :
    (rename_company c4State (str "A") (str "B")).2 = true
    ∧ list_saved_files (rename_company c4State (str "A") (str "B")).1.files =
        [str "A_x.json"]
    ∧ (list_saved_files (rename_company c4State (str "A") (str "B")).1.files).filter
        (fun n => strStartsWith n (str "B_")) = []
    ∧ (fsGet? (rename_company c4State (str "A") (str "B")).1.files (str "A_x.json")).map
        (fun d => dget? d cnKey) = some (some (str "A")) := by
  refine ⟨by decide, by decide, by decide, by decide⟩

/-- C5 counterexample: on the spec's own example store (`Acme_2023.pdf`
with text `Revenue: 100`, `Acme_2022.pdf` with `Revenue: 90`), the
context assembled for the query `What was revenue in 2023?` still
contains the `Acme - 2022.pdf` part, so assembly is not restricted to
artifacts whose key contains a mentioned year. -/
theorem c5_counterexample :
    strContains
      (context_for_prompt acmeYears.files [str "Acme"] (str "What was revenue in 2023?"))
      (str "=== Acme - 2022.pdf ===") = true := by
  decide

/-- C5 amended: the code contains no year-based narrowing at all — the
context handed to the model client is the same for every query text, and
on the example store a query mentioning 2023 still receives the
`Acme - 2023.pdf` part together with every other selected artifact. -/
theorem c5_no_year_filter :
    (∀ (fs : Files) (sel : List Str) (p q : Str),
      context_for_prompt fs sel p = context_for_prompt fs sel q)
    ∧ strContains
        (context_for_prompt acmeYears.files [str "Acme"] (str "What was revenue in 2023?"))
        (str "=== Acme - 2023.pdf ===") = true := by
  refine ⟨fun fs sel p q => rfl, by decide⟩

/-- C8: loading an absent artifact yields `none`, deleting an absent
artifact yields `false` and leaves the store unchanged, and loading an
absent chat session yields the empty message list — none of them raise. -/
theorem c8_absent_keys (fs : Files) (hist : HistStore) (fn sid : Str)
    (hf : splitextBase fn ++ str ".json" ∉ fsKeys fs)
    (hsid : sid ∉ hist.map Prod.fst) :
    load_extracted_data fs fn = none
    ∧ delete_extracted_data fs fn = (fs, false)
    ∧ load_chat_history hist sid = [] := by
  have h1 : fsGet? fs (splitextBase fn ++ str ".json") = none := fsGet?_eq_none hf
  refine ⟨h1, ?_, ?_⟩
  · simp [delete_extracted_data, h1]
  · simp [load_chat_history, hsGet?_eq_none hsid]

/-- Witness for `c8_absent_keys` at the empty stores and the key
`report.pdf` / session `missing`. -/
theorem c8_absent_keys_witness :
    load_extracted_data [] (str "report.pdf") = none
    ∧ delete_extracted_data [] (str "report.pdf") = ([], false)
    ∧ load_chat_history [] (str "missing") = [] :=
  c8_absent_keys [] [] (str "report.pdf") (str "missing") (by decide) (by decide)

/-- C2: inputs at or below the token budget pass through verbatim with
`was_truncated = false`; inputs above it are cut to the prefix of
`floor(len * (budget / estimated_tokens) * 0.95)` characters plus the
fixed notice, return `was_truncated = true`, and the result's estimated
token count stays within the budget plus the notice's own token
estimate (the notice is 28 characters, 7 estimated tokens). -/
theorem c2_truncation (ctx : Str) (B : Nat) :
    (estimate_tokens ctx ≤ B → truncate_context ctx B = (ctx, false))
    ∧ (B < estimate_tokens ctx →
        truncate_context ctx B =
          (ctx.take (ctx.length * B * 95 / (estimate_tokens ctx * 100)) ++ TRUNC_NOTICE, true)
        ∧ estimate_tokens (truncate_context ctx B).1 ≤ B + estimate_tokens TRUNC_NOTICE) := by
  constructor
  · intro h
    simp [truncate_context, h]
  · intro h
    have hno : ¬ (estimate_tokens ctx ≤ B) := by omega
    have hout : truncate_context ctx B =
        (ctx.take (ctx.length * B * 95 / (estimate_tokens ctx * 100)) ++ TRUNC_NOTICE, true) := by
      simp [truncate_context, hno]
    refine ⟨hout, ?_⟩
    have hM : ctx.length * B * 95 / (estimate_tokens ctx * 100) ≤ 4 * B + 3 := by
      by_contra hM4
      push_neg at hM4
      have c2 : ctx.length * B * 95 / (estimate_tokens ctx * 100) * (estimate_tokens ctx * 100) ≤
          ctx.length * B * 95 := Nat.div_mul_le_self _ _
      have c1 : (4 * B + 4) * (estimate_tokens ctx * 100) ≤
          ctx.length * B * 95 / (estimate_tokens ctx * 100) * (estimate_tokens ctx * 100) :=
        mul_le_mul_right' (by omega) _
      have hL : ctx.length < 4 * estimate_tokens ctx + 4 := by
        unfold estimate_tokens
        omega
      have c3 : ctx.length * B * 95 ≤ (4 * estimate_tokens ctx + 3) * B * 95 :=
        mul_le_mul_right' (mul_le_mul_right' (by omega) B) 95
      have c7 : 400 * (estimate_tokens ctx * B) + 400 * estimate_tokens ctx ≤
          380 * (estimate_tokens ctx * B) + 285 * B := by
        calc 400 * (estimate_tokens ctx * B) + 400 * estimate_tokens ctx
            = (4 * B + 4) * (estimate_tokens ctx * 100) := by ring
          _ ≤ _ := c1
          _ ≤ ctx.length * B * 95 := c2
          _ ≤ (4 * estimate_tokens ctx + 3) * B * 95 := c3
          _ = 380 * (estimate_tokens ctx * B) + 285 * B := by ring
      have c6 : 285 * B + 285 ≤ 285 * estimate_tokens ctx := by
        have hBE : B + 1 ≤ estimate_tokens ctx := h
        calc 285 * B + 285 = 285 * (B + 1) := by ring
          _ ≤ 285 * estimate_tokens ctx := mul_le_mul_left' hBE 285
      generalize hQ : estimate_tokens ctx * B = Q at c7
      omega
    rw [hout, show estimate_tokens TRUNC_NOTICE = 7 by decide]
    show (ctx.take _ ++ TRUNC_NOTICE).length / 4 ≤ B + 7
    rw [List.length_append, List.length_take, show TRUNC_NOTICE.length = 28 by decide]
    have hmin := min_le_left (ctx.length * B * 95 / (estimate_tokens ctx * 100)) ctx.length
    omega

/-- Witness for `c2_truncation`: the 8-character context estimated at 2
tokens is cut against a budget of 1, keeping `floor(8·(1/2)·0.95) = 3`
characters; the 2-character context passes through a budget of 1
verbatim. -/
theorem c2_truncation_witness :
    truncate_context (str "abcdefgh") 1 = (str "abc" ++ TRUNC_NOTICE, true)
    ∧ estimate_tokens (truncate_context (str "abcdefgh") 1).1 ≤ 1 + estimate_tokens TRUNC_NOTICE
    ∧ truncate_context (str "ab") 1 = (str "ab", false) := by
  have h1 := (c2_truncation (str "abcdefgh") 1).2 (by decide)
  have h2 := (c2_truncation (str "ab") 1).1 (by decide)
  exact ⟨h1.1.trans (by decide), h1.2, h2⟩

theorem hsGet?_save_self (hs : HistStore) (msgs : List Msg) (sid now : Str) :
    hsGet? (save_chat_history hs msgs sid now) sid = some ⟨now, msgs⟩ := by
  rw [save_chat_history]
  induction hs with
  | nil => simp [hsGet?]
  | cons p rest ih =>
    by_cases hp : p.1 = sid
    · simpa [List.filter_cons, hp] using ih
    · simpa [List.filter_cons, hp, hsGet?] using ih

theorem hsGet?_save_ne (hs : HistStore) (msgs : List Msg) (sid now s : Str) (h : s ≠ sid) :
    hsGet? (save_chat_history hs msgs sid now) s = hsGet? hs s := by
  rw [save_chat_history]
  induction hs with
  | nil => simp [hsGet?, Ne.symm h]
  | cons p rest ih =>
    by_cases hp : p.1 = sid
    · have hps : p.1 ≠ s := fun he => h (by rw [← he, hp])
      simpa [List.filter_cons, hp, hsGet?, hps, Ne.symm h] using ih
    · by_cases hs2 : p.1 = s
      · simp [List.filter_cons, hp, hsGet?, hs2, h]
      · simpa [List.filter_cons, hp, hsGet?, hs2] using ih

/-- C7: when the model client fails mid-turn — an uncaught exception
propagating out of `ask`, the rate limit surviving all `MAX_RETRIES`
attempts, or an `APIError` surfaced as a message — the turn still appends
the user's question followed by a recorded failure message as the
assistant's entry, persists exactly that list under the current session,
and leaves every other session untouched. -/
theorem c7_failure_recorded (hist : HistStore) (sid now : Str) (messages : List Msg)
    (prompt : Str) (attempts : Nat → ApiAttempt) :
    (∀ e, client_ask attempts = .error e →
      (run_chat_turn hist sid now messages prompt attempts).2 =
        messages ++ [(str "user", prompt),
          (str "assistant",
            if strContains e (str "too long") then tooLongMsg else str "오류: " ++ e)]
      ∧ load_chat_history (run_chat_turn hist sid now messages prompt attempts).1 sid =
          (run_chat_turn hist sid now messages prompt attempts).2
      ∧ ∀ s, s ≠ sid →
          hsGet? (run_chat_turn hist sid now messages prompt attempts).1 s = hsGet? hist s)
    ∧ ((∀ i, attempts i = .rateLimited) →
      client_ask attempts = .ok rateLimitMsg
      ∧ (run_chat_turn hist sid now messages prompt attempts).2 =
          messages ++ [(str "user", prompt), (str "assistant", rateLimitMsg)]
      ∧ load_chat_history (run_chat_turn hist sid now messages prompt attempts).1 sid =
          (run_chat_turn hist sid now messages prompt attempts).2)
    ∧ (∀ m, attempts 0 = .apiError m →
      (run_chat_turn hist sid now messages prompt attempts).2 =
        messages ++ [(str "user", prompt), (str "assistant", apiErrorMsg m)]) := by
  refine ⟨?_, ?_, ?_⟩
  · intro e he
    refine ⟨by simp [run_chat_turn, handle_turn, he], ?_, ?_⟩
    · simp only [run_chat_turn, load_chat_history, hsGet?_save_self]
    · intro s hsne
      simp only [run_chat_turn]
      exact hsGet?_save_ne _ _ _ _ _ hsne
  · intro h
    have hask : client_ask attempts = .ok rateLimitMsg := by
      simp [client_ask, MAX_RETRIES, askLoop, h]
    refine ⟨hask, by simp [run_chat_turn, handle_turn, hask], ?_⟩
    simp only [run_chat_turn, load_chat_history, hsGet?_save_self]
  · intro m hm
    have hask : client_ask attempts = .ok (apiErrorMsg m) := by
      simp [client_ask, MAX_RETRIES, askLoop, hm]
    simp [run_chat_turn, handle_turn, hask]

/-- Witness for `c7_failure_recorded`: a permanently rate-limited client
still yields a persisted turn ending in the degraded-service message. -/
theorem c7_failure_recorded_witness :
    (run_chat_turn demoHist (str "s3") (str "now") [(str "user", str "q")] (str "p")
      (fun _ => .rateLimited)).2 =
      [(str "user", str "q"), (str "user", str "p"), (str "assistant", rateLimitMsg)] := by
  have h := (c7_failure_recorded demoHist (str "s3") (str "now") [(str "user", str "q")]
    (str "p") (fun _ => .rateLimited)).2.1 (fun i => rfl)
  exact h.2.1

/-- C6: with no current-session pointer, a start on a non-empty session
store adopts the head of `list_chat_sessions()` — whose `updated_at` is
maximal among all stored sessions — and loads exactly its stored
messages; on an empty store it mints the fresh timestamp id with an
empty message list. -/
theorem c6_session_recovery (hist : HistStore) (now : Str) :
    (∀ s rest, list_chat_sessions hist = s :: rest →
      init_session_state hist now = (s.1, load_chat_history hist s.1)
      ∧ ∀ e ∈ hist, strLtB s.2.1 e.2.updatedAt = false)
    ∧ (hist = [] → init_session_state hist now = (now, [])) := by
  constructor
  · intro s rest hlist
    refine ⟨by simp [init_session_state, hlist], ?_⟩
    intro e he
    have hmem : (e.1, e.2.updatedAt, e.2.messages.length) ∈ list_chat_sessions hist := by
      rw [list_chat_sessions, mem_sortDescBy]
      exact List.mem_map_of_mem _ he
    have hpw : (list_chat_sessions hist).Pairwise
        (fun x y => strLtB x.2.1 y.2.1 = false) :=
      pairwise_sortDescBy _ _
    rw [hlist] at hmem hpw
    rw [List.pairwise_cons] at hpw
    rcases List.mem_cons.mp hmem with heq | hmem2
    · have he2 : e.2.updatedAt = s.2.1 := congrArg (fun t => t.2.1) heq
      rw [he2]
      exact strLtB_irrefl _
    · exact hpw.1 _ hmem2
  · intro h
    subst h
    rfl

/-- Witness for `c6_session_recovery`: on the three-session store with
stamps `2024-01 < 2024-02 < 2024-03` the session `s3` is recovered with
its two messages; the empty store mints the fresh id. -/
theorem c6_session_recovery_witness :
    init_session_state demoHist (str "fresh") =
      (str "s3", [(str "user", str "q3"), (str "assistant", str "a3")])
    ∧ init_session_state [] (str "fresh") = (str "fresh", []) := by
  have h := (c6_session_recovery demoHist (str "fresh")).1
    (str "s3", str "2024-03-01T10:00:00", 2)
    [(str "s2", str "2024-02-01T10:00:00", 0), (str "s1", str "2024-01-01T10:00:00", 1)]
    (by decide)
  exact ⟨h.1.trans (by decide), (c6_session_recovery [] (str "fresh")).2 rfl⟩

/-- C9: `save_extracted_data` strips the final extension of the supplied
key, so the keys built from two filenames that differ only in their final
(dot-free) extension normalise to the same record; saving the second
overwrites the first (the record under the shared name changes from the
first dict to the second), and `load_extracted_data` returns that same
record for either key. -/
theorem c9_extension_collision (fs : Files) (g base e1 e2 n1 n2 : Str) (d1 d2 : Dict)
    (he1 : '.' ∉ e1) (he2 : '.' ∉ e2) :
    let k1 := g ++ str "_" ++ (base ++ '.' :: e1)
    let k2 := g ++ str "_" ++ (base ++ '.' :: e2)
    let fs1 := save_extracted_data fs d1 k1 n1
    let fs2 := save_extracted_data fs1 d2 k2 n2
    splitextBase k1 = splitextBase k2
    ∧ load_extracted_data fs1 k1 = some (dset d1 (str "extracted_at") n1)
    ∧ load_extracted_data fs2 k1 = some (dset d2 (str "extracted_at") n2)
    ∧ load_extracted_data fs2 k2 = some (dset d2 (str "extracted_at") n2) := by
  intro k1 k2 fs1 fs2
  have hx : ∃ c ∈ g ++ str "_" ++ base, c ≠ '.' := ⟨'_', by simp [str], by decide⟩
  have hk1 : splitextBase k1 = g ++ str "_" ++ base := by
    have ha : k1 = (g ++ str "_" ++ base) ++ '.' :: e1 := by simp [k1]
    rw [ha]
    exact splitextBase_ext hx he1
  have hk2 : splitextBase k2 = g ++ str "_" ++ base := by
    have ha : k2 = (g ++ str "_" ++ base) ++ '.' :: e2 := by simp [k2]
    rw [ha]
    exact splitextBase_ext hx he2
  refine ⟨hk1.trans hk2.symm, ?_, ?_, ?_⟩
  · show fsGet? (fsSet fs (splitextBase k1 ++ str ".json") (dset d1 (str "extracted_at") n1))
        (splitextBase k1 ++ str ".json") = _
    exact fsGet?_fsSet_self _ _ _
  · show fsGet? (fsSet fs1 (splitextBase k2 ++ str ".json") (dset d2 (str "extracted_at") n2))
        (splitextBase k1 ++ str ".json") = _
    rw [hk1, hk2]
    exact fsGet?_fsSet_self _ _ _
  · show fsGet? (fsSet fs1 (splitextBase k2 ++ str ".json") (dset d2 (str "extracted_at") n2))
        (splitextBase k2 ++ str ".json") = _
    exact fsGet?_fsSet_self _ _ _

/-- Witness for `c9_extension_collision`: after saving `Acme_report.pdf`
and then `Acme_report.docx`, loading under the `.pdf` key returns the
`.docx` record. -/
theorem c9_extension_collision_witness :
    load_extracted_data
      (save_extracted_data
        (save_extracted_data [] [(str "t", str "A")] (str "Acme_report.pdf") (str "t1"))
        [(str "t", str "B")] (str "Acme_report.docx") (str "t2"))
      (str "Acme_report.pdf") =
      some (dset [(str "t", str "B")] (str "extracted_at") (str "t2")) := by
  have h := c9_extension_collision [] (str "Acme") (str "report") (str "pdf") (str "docx")
    (str "t1") (str "t2") [(str "t", str "A")] [(str "t", str "B")] (by decide) (by decide)
  exact h.2.2.1

theorem strEndsWith_append (xs ys : Str) : strEndsWith (xs ++ ys) ys = true := by
  rw [strEndsWith, List.isSuffixOf_iff_suffix]
  exact ⟨xs, rfl⟩

theorem strStartsWith_append (xs ys : Str) : strStartsWith (xs ++ ys) xs = true := by
  rw [strStartsWith, List.isPrefixOf_iff_prefix]
  exact ⟨ys, rfl⟩

theorem key_mem_fsSet (fs : Files) (n : Str) (v : Dict) : n ∈ fsKeys (fsSet fs n v) := by
  simp [fsSet, fsKeys]

theorem delete_extracted_data_gone (fs : Files) (fn : Str) :
    fsGet? (delete_extracted_data fs fn).1 (splitextBase fn ++ str ".json") = none := by
  by_cases hc : (fsGet? fs (splitextBase fn ++ str ".json")).isSome
  · simp only [delete_extracted_data, hc, if_true]
    exact fsGet?_fsErase_self _ _
  · rw [Option.not_isSome_iff_eq_none] at hc
    simp [delete_extracted_data, hc]

theorem pdfHas_save (pdfs : List (Str × List Str)) (g f : Str) :
    pdfHas (save_pdf_permanently pdfs g f) g f = true := by
  induction pdfs with
  | nil => simp [save_pdf_permanently, pdfHas]
  | cons p rest ih =>
    by_cases hp : p.1 = g
    · by_cases hf : f ∈ p.2 <;> simp [save_pdf_permanently, hp, pdfHas, hf]
    · simpa [save_pdf_permanently, hp, pdfHas] using ih

theorem pdfHas_delete_of (pdfs : List (Str × List Str)) (g f x : Str) (h : f ≠ x)
    (hhas : pdfHas pdfs g f = true) : pdfHas (delete_pdf_file pdfs g x) g f = true := by
  induction pdfs with
  | nil => simp [pdfHas] at hhas
  | cons p rest ih =>
    simp only [pdfHas, List.any_cons, Bool.or_eq_true, Bool.and_eq_true,
      decide_eq_true_eq] at hhas
    rcases hhas with ⟨hpg, hf⟩ | htail
    · simp only [delete_pdf_file, List.map_cons]
      rw [if_pos hpg]
      simp only [pdfHas, List.any_cons, Bool.or_eq_true, Bool.and_eq_true, decide_eq_true_eq]
      left
      exact ⟨hpg, by simp [List.mem_filter, hf, h]⟩
    · simp only [delete_pdf_file, List.map_cons]
      simp only [pdfHas, List.any_cons, Bool.or_eq_true]
      right
      have := ih (by simpa [pdfHas] using htail)
      simpa [delete_pdf_file, pdfHas] using this

/-- C10 counterexample: uploading `a.b.pdf` (a stem containing a dot)
under group `g` stores `g_a.b.json` and lists the file as `a.b`, but the
single-file delete path normalises `g_a.b` down to `g_a.json`, deletes
nothing (`False` from `delete_extracted_data`), and the extracted record
survives — contradicting the claim that the extracted JSON record is
removed for every extension-bearing upload. -/
theorem c10_counterexample :
    get_company_files c10State.files (str "g") = [str "a.b"]
    ∧ (delete_extracted_data c10State.files (str "g_" ++ str "a.b")).2 = false
    ∧ (fsGet? (main_delete_file c10State (str "g") (str "a.b")).files
        (str "g_a.b.json")).isSome = true
    ∧ pdfHas (main_delete_file c10State (str "g") (str "a.b")).pdfs
        (str "g") (str "a.b.pdf") = true := by
  refine ⟨by decide, by decide, by decide, by decide⟩

/-- C10 amended: for an upload whose group name and stem are dot-free
(the only dot separating the final extension), the listed name is the
stem, the delete path removes the extracted JSON record, and the stored
PDF — addressed under its full name, never matched by the stripped
name — survives on disk. -/
theorem c10_pdf_survives (st : AppState) (g base ext text tables now : Str)
    (hg : '.' ∉ g) (hb : '.' ∉ base) (he : '.' ∉ ext) :
    let fname := base ++ '.' :: ext
    let st1 := save_company_file st g fname text tables now
    let st2 := main_delete_file st1 g base
    base ∈ get_company_files st1.files g
    ∧ fsGet? st2.files (g ++ str "_" ++ base ++ str ".json") = none
    ∧ pdfHas st2.pdfs g fname = true := by
  intro fname st1 st2
  have hx : ∃ c ∈ g ++ str "_" ++ base, c ≠ '.' := ⟨'_', by simp [str], by decide⟩
  have hsplit : splitextBase (g ++ str "_" ++ fname) = g ++ str "_" ++ base := by
    have ha : g ++ str "_" ++ fname = (g ++ str "_" ++ base) ++ '.' :: ext := by
      simp [fname]
    rw [ha]
    exact splitextBase_ext hx he
  have hkey : splitextBase (g ++ str "_" ++ fname) ++ str ".json" =
      (g ++ str "_") ++ (base ++ str ".json") := by
    rw [hsplit]
    simp
  refine ⟨?_, ?_, ?_⟩
  · -- the stripped listing contains the stem
    rw [get_company_files, mem_sortStr, List.mem_dedup, List.mem_filterMap]
    refine ⟨(g ++ str "_") ++ (base ++ str ".json"), ?_, ?_⟩
    · rw [list_saved_files, mem_sortStr, List.mem_filter]
      constructor
      · rw [← hkey]
        exact key_mem_fsSet _ _ _
      · have ha : (g ++ str "_") ++ (base ++ str ".json") =
            ((g ++ str "_") ++ base) ++ str ".json" := by simp
        rw [ha]
        exact strEndsWith_append _ _
    · rw [if_pos (strStartsWith_append (g ++ str "_") (base ++ str ".json"))]
      have hdrop : ((g ++ str "_") ++ (base ++ str ".json")).drop (g.length + 1) =
          base ++ str ".json" := by
        rw [show g.length + 1 = (g ++ str "_").length by simp [str], List.drop_left]
      have hval : (if strEndsWith (base ++ str ".json") (str ".json") = true
          then List.take ((base ++ str ".json").length - 5) (base ++ str ".json")
          else base ++ str ".json") = base := by
        rw [strEndsWith_append base (str ".json")]
        simp only [if_true]
        rw [show (base ++ str ".json").length - 5 = base.length by simp [str], List.take_left]
      rw [hdrop]
      exact congrArg some hval
  · -- the extracted record is removed
    have hnodot : '.' ∉ g ++ str "_" ++ base := by
      simp only [List.mem_append]
      push_neg
      exact ⟨⟨hg, by decide⟩, hb⟩
    have hnorm : splitextBase (g ++ str "_" ++ base) = g ++ str "_" ++ base :=
      splitextBase_no_dot hnodot
    have hgone := delete_extracted_data_gone st1.files (g ++ str "_" ++ base)
    rw [hnorm] at hgone
    have : g ++ str "_" ++ base ++ str ".json" = (g ++ str "_" ++ base) ++ str ".json" := by
      simp
    rw [this]
    exact hgone
  · -- the PDF survives
    have hne : fname ≠ base := by
      intro hcontra
      have := congrArg List.length hcontra
      simp [fname] at this
    exact pdfHas_delete_of _ _ _ _ hne (pdfHas_save st.pdfs g fname)

/-- Witness for `c10_pdf_survives` at the upload `report.pdf` under
group `g`. -/
theorem c10_pdf_survives_witness :
    (str "report") ∈ get_company_files
      (save_company_file c10Plain (str "g") (str "report.pdf") (str "T") (str "")
        (str "t0")).files (str "g")
    ∧ fsGet? (main_delete_file
        (save_company_file c10Plain (str "g") (str "report.pdf") (str "T") (str "") (str "t0"))
        (str "g") (str "report")).files (str "g_report.json") = none
    ∧ pdfHas (main_delete_file
        (save_company_file c10Plain (str "g") (str "report.pdf") (str "T") (str "") (str "t0"))
        (str "g") (str "report")).pdfs (str "g") (str "report.pdf") = true := by
  have h := c10_pdf_survives c10Plain (str "g") (str "report") (str "pdf") (str "T") (str "")
    (str "t0") (by decide) (by decide) (by decide)
  exact ⟨h.1, by
    have h2 := h.2.1
    exact (by decide : str "g_report.json" = str "g" ++ str "_" ++ str "report" ++ str ".json") ▸ h2, h.2.2⟩

theorem migrateStep_absent {fs : Files} {n : Str} (h : fsGet? fs n = none) :
    migrateStep fs n = (fs, 0) := by
  simp [migrateStep, h]

theorem migrateStep_skip {fs : Files} {n : Str} {d : Dict} (h : fsGet? fs n = some d)
    (ht : dget? d cnKey = some legacyName) : migrateStep fs n = (fs, 0) := by
  simp [migrateStep, h, ht]

theorem migrateStep_move {fs : Files} {n : Str} {d : Dict} (h : fsGet? fs n = some d)
    (ht : ¬ dget? d cnKey = some legacyName) :
    migrateStep fs n =
      (fsErase (fsSet fs (legacyName ++ str "_" ++ n)
        (dset (dset (dset d cnKey legacyName) ofKey (stripJsonAll n)) mflKey (str "True"))) n,
       1) := by
  simp [migrateStep, h, ht]

theorem migrated_tagged (d : Dict) (x y : Str) :
    dget? (dset (dset (dset d cnKey legacyName) ofKey x) mflKey y) cnKey = some legacyName := by
  rw [dget?_dset_ne _ _ _ _ (by decide), dget?_dset_ne _ _ _ _ (by decide), dget?_dset_self]

theorem migrateStep_keysNodup {fs : Files} (n : Str) (h : keysNodup fs) :
    keysNodup (migrateStep fs n).1 := by
  rcases hg : fsGet? fs n with _ | d
  · rw [migrateStep_absent hg]
    exact h
  · by_cases ht : dget? d cnKey = some legacyName
    · rw [migrateStep_skip hg ht]
      exact h
    · rw [migrateStep_move hg ht]
      exact keysNodup_fsErase _ (keysNodup_fsSet _ _ h)

theorem isLegacyFile_mono {C C' : List Str} (hsub : ∀ x ∈ C, x ∈ C') {n : Str}
    (h : isLegacyFile C' n = true) : isLegacyFile C n = true := by
  rw [isLegacyFile] at h ⊢
  by_cases hu : '_' ∈ splitextBase n
  · rw [if_pos hu] at h ⊢
    simp only [decide_eq_true_eq] at h ⊢
    exact fun hc => h (hsub _ hc)
  · rw [if_neg hu]

theorem migrateFold_good (C : List Str) :
    ∀ (ns : List Str) (fs : Files) (c : Nat), keysNodup fs →
      (∀ p ∈ fs, GoodP C p ∨ p.1 ∈ ns) →
      keysNodup (ns.foldl migrateAccStep (fs, c)).1
      ∧ ∀ p ∈ (ns.foldl migrateAccStep (fs, c)).1, GoodP C p := by
  intro ns
  induction ns with
  | nil =>
    intro fs c hnd hinv
    refine ⟨hnd, fun p hp => ?_⟩
    rcases hinv p hp with hg | hmem
    · exact hg
    · simp at hmem
  | cons n ns ih =>
    intro fs c hnd hinv
    rw [List.foldl_cons]
    have hstep : (migrateAccStep (fs, c) n).1 = (migrateStep fs n).1 := rfl
    have hnd2 : keysNodup (migrateStep fs n).1 := migrateStep_keysNodup n hnd
    have hinv2 : ∀ p ∈ (migrateStep fs n).1, GoodP C p ∨ p.1 ∈ ns := by
      rcases hg : fsGet? fs n with _ | d
      · rw [migrateStep_absent hg]
        intro p hp
        rcases hinv p hp with h1 | h1
        · exact Or.inl h1
        · rcases List.mem_cons.mp h1 with h2 | h2
          · exfalso
            have hsome := fsGet?_isSome_of_mem (show (p.1, p.2) ∈ fs from hp)
            rw [h2, hg] at hsome
            simp at hsome
          · exact Or.inr h2
      · by_cases ht : dget? d cnKey = some legacyName
        · rw [migrateStep_skip hg ht]
          intro p hp
          rcases hinv p hp with h1 | h1
          · exact Or.inl h1
          · rcases List.mem_cons.mp h1 with h2 | h2
            · left
              intro _ _
              have := fsGet?_eq_of_mem_nodup hnd (show (p.1, p.2) ∈ fs from hp)
              rw [h2, hg] at this
              have hd : p.2 = d := by
                injection this with hv
                exact hv.symm
              rw [hd]
              exact ht
            · exact Or.inr h2
        · rw [migrateStep_move hg ht]
          intro p hp
          rcases mem_fsErase.mp hp with ⟨hp1, hpn⟩
          rcases mem_fsSet.mp hp1 with ⟨hp2, hpnew⟩ | hp2
          · rcases hinv p hp2 with h1 | h1
            · exact Or.inl h1
            · rcases List.mem_cons.mp h1 with h2 | h2
              · exact absurd h2 hpn
              · exact Or.inr h2
          · left
            intro _ _
            rw [hp2]
            exact migrated_tagged d _ _
    have := ih (migrateStep fs n).1 (c + (migrateStep fs n).2) hnd2 hinv2
    exact this

theorem migrateFold_skip :
    ∀ (ns : List Str) (fs : Files) (c : Nat),
      (∀ n ∈ ns, ∃ d, fsGet? fs n = some d ∧ dget? d cnKey = some legacyName) →
      ns.foldl migrateAccStep (fs, c) = (fs, c) := by
  intro ns
  induction ns with
  | nil => intro fs c _; rfl
  | cons n ns ih =>
    intro fs c htag
    obtain ⟨d, hg, ht⟩ := htag n (List.mem_cons_self n ns)
    rw [List.foldl_cons]
    have hstep : migrateAccStep (fs, c) n = (fs, c) := by
      rw [migrateAccStep, migrateStep_skip hg ht]
      simp
    rw [hstep]
    exact ih fs c (fun m hm => htag m (List.mem_cons_of_mem n hm))

theorem auto_migrate_unfold (st : AppState) :
    auto_migrate_legacy_data st =
      if (((fsKeys st.legacyDir).filter (fun n => strEndsWith n (str ".json"))).filter
          (isLegacyFile st.companies)).isEmpty then (st, 0)
      else
        ({ st with
            companies := if legacyName ∈ st.companies then st.companies
              else st.companies ++ [legacyName],
            legacyDir := ((((fsKeys st.legacyDir).filter
                  (fun n => strEndsWith n (str ".json"))).filter
                  (isLegacyFile st.companies)).foldl migrateAccStep (st.legacyDir, 0)).1 },
         ((((fsKeys st.legacyDir).filter (fun n => strEndsWith n (str ".json"))).filter
              (isLegacyFile st.companies)).foldl migrateAccStep (st.legacyDir, 0)).2) := rfl

theorem auto_migrate_fixed (st : AppState) (hnd : keysNodup st.legacyDir)
    (hleg : legacyName ∈ st.companies)
    (hgood : ∀ p ∈ st.legacyDir, GoodP st.companies p) :
    auto_migrate_legacy_data st = (st, 0) := by
  rw [auto_migrate_unfold]
  by_cases hemp : (((fsKeys st.legacyDir).filter (fun n => strEndsWith n (str ".json"))).filter
      (isLegacyFile st.companies)).isEmpty = true
  · rw [if_pos hemp]
  · rw [if_neg hemp]
    have hskip : (((fsKeys st.legacyDir).filter (fun n => strEndsWith n (str ".json"))).filter
        (isLegacyFile st.companies)).foldl migrateAccStep (st.legacyDir, 0) =
        (st.legacyDir, 0) := by
      apply migrateFold_skip
      intro n hn
      rw [List.mem_filter] at hn
      obtain ⟨hn1, hlegacy⟩ := hn
      rw [List.mem_filter] at hn1
      obtain ⟨hkeys, hjson⟩ := hn1
      rw [fsKeys, List.mem_map] at hkeys
      obtain ⟨p, hp, hp1⟩ := hkeys
      refine ⟨p.2, ?_, ?_⟩
      · rw [← hp1]
        exact fsGet?_eq_of_mem_nodup hnd (show (p.1, p.2) ∈ st.legacyDir from hp)
      · exact hgood p hp (hp1 ▸ hjson) (hp1 ▸ hlegacy)
    rw [hskip, if_pos hleg]

/-- C3: running the legacy migration twice leaves the state produced by
the first run untouched and reports a migrated count of 0 on the second
run; in particular (second conjunct) the migration loop skips — without
touching the store or counting — every file whose `company_name` field
already equals the legacy group's exact name. -/
theorem c3_migration_idempotent (st : AppState) (hnd : keysNodup st.legacyDir) :
    auto_migrate_legacy_data (auto_migrate_legacy_data st).1 =
      ((auto_migrate_legacy_data st).1, 0)
    ∧ ∀ (fs : Files) (n : Str) (d : Dict), fsGet? fs n = some d →
        dget? d cnKey = some legacyName → migrateStep fs n = (fs, 0) := by
  refine ⟨?_, fun fs n d h ht => migrateStep_skip h ht⟩
  by_cases hemp : (((fsKeys st.legacyDir).filter (fun n => strEndsWith n (str ".json"))).filter
      (isLegacyFile st.companies)).isEmpty = true
  · have h1 : auto_migrate_legacy_data st = (st, 0) := by
      rw [auto_migrate_unfold, if_pos hemp]
    rw [h1]
    exact h1
  · have h1 : auto_migrate_legacy_data st =
        ({ st with
            companies := if legacyName ∈ st.companies then st.companies
              else st.companies ++ [legacyName],
            legacyDir := ((((fsKeys st.legacyDir).filter
                  (fun n => strEndsWith n (str ".json"))).filter
                  (isLegacyFile st.companies)).foldl migrateAccStep (st.legacyDir, 0)).1 },
         ((((fsKeys st.legacyDir).filter (fun n => strEndsWith n (str ".json"))).filter
              (isLegacyFile st.companies)).foldl migrateAccStep (st.legacyDir, 0)).2) := by
      rw [auto_migrate_unfold, if_neg hemp]
    have hsub : ∀ x ∈ st.companies,
        x ∈ (if legacyName ∈ st.companies then st.companies
          else st.companies ++ [legacyName]) := by
      intro x hx
      by_cases hc : legacyName ∈ st.companies
      · rw [if_pos hc]; exact hx
      · rw [if_neg hc]; exact List.mem_append_left _ hx
    have hinit : ∀ p ∈ st.legacyDir,
        GoodP (if legacyName ∈ st.companies then st.companies
          else st.companies ++ [legacyName]) p
        ∨ p.1 ∈ (((fsKeys st.legacyDir).filter (fun n => strEndsWith n (str ".json"))).filter
            (isLegacyFile st.companies)) := by
      intro p hp
      by_cases hj : strEndsWith p.1 (str ".json") = true
      · by_cases hl : isLegacyFile st.companies p.1 = true
        · right
          rw [List.mem_filter]
          refine ⟨?_, hl⟩
          rw [List.mem_filter]
          exact ⟨List.mem_map_of_mem Prod.fst hp, hj⟩
        · left
          intro _ hl'
          exact absurd (isLegacyFile_mono hsub hl') hl
      · left
        intro hj' _
        exact absurd hj' hj
    have hgood := migrateFold_good
      (if legacyName ∈ st.companies then st.companies else st.companies ++ [legacyName])
      (((fsKeys st.legacyDir).filter (fun n => strEndsWith n (str ".json"))).filter
        (isLegacyFile st.companies))
      st.legacyDir 0 hnd hinit
    rw [h1]
    apply auto_migrate_fixed
    · exact hgood.1
    · show legacyName ∈ (if legacyName ∈ st.companies then st.companies
        else st.companies ++ [legacyName])
      by_cases hc : legacyName ∈ st.companies
      · rw [if_pos hc]; exact hc
      · rw [if_neg hc]; exact List.mem_append_right _ (List.mem_singleton_self _)
    · exact hgood.2

/-- Witness for `c3_migration_idempotent`: the second migration run on
the one-legacy-record store is the identity with count 0. -/
theorem c3_migration_idempotent_witness :
    auto_migrate_legacy_data (auto_migrate_legacy_data legacyDemo).1 =
      ((auto_migrate_legacy_data legacyDemo).1, 0)
    ∧ migrateStep [(str "a.json", [(cnKey, legacyName)])] (str "a.json") =
      ([(str "a.json", [(cnKey, legacyName)])], 0) := by
  have h := c3_migration_idempotent legacyDemo
    (by show (fsKeys legacyDemo.legacyDir).Nodup; decide)
  exact ⟨h.1, h.2 [(str "a.json", [(cnKey, legacyName)])] (str "a.json")
    [(cnKey, legacyName)] (by decide) (by decide)⟩

end FinChat
